import Mathlib

/-!
Verification of the batched multivariate normal distribution module
(`torch/distributions/multivariate_normal.py`).

The development has two layers:

* a computable shape algebra over `List ℕ` embedding the broadcasting
  behaviour of `torch._C._infer_size`, `Tensor.expand`, and the module's
  `_get_batch_shape` resolver;
* per-batch-item mathematics over `Matrix (Fin n) (Fin n) ℝ` embedding the
  flattened per-item routines `_batch_mv`, `_batch_potrf_lower`,
  `_batch_diag`, `_batch_mahalanobis` and the distribution's
  `log_prob` / `entropy` / `rsample` formulas.
-/

namespace TorchMVN

/-! ## Shape algebra -/

/-- Modelled from the spec: the per-dimension rule of standard right-aligned
broadcasting used by `torch._C._infer_size` (which is repository code not
included here) — two aligned dimensions are compatible if they are equal or
one of them is 1, the combined dimension being the other one. -/
def combineDim (x y : ℕ) : Option ℕ :=
  if x = y then some x
  else if x = 1 then some y
  else if y = 1 then some x
  else none

/-- Broadcast two shapes given in reversed (trailing-dimension-first) order;
missing leading dimensions are treated as present on the other shape. -/
def broadcastRev : List ℕ → List ℕ → Option (List ℕ)
  | [], ys => some ys
  | x :: xs, [] => some (x :: xs)
  | x :: xs, y :: ys =>
    match combineDim x y, broadcastRev xs ys with
    | some d, some rest => some (d :: rest)
    | _, _ => none

/-- Modelled from the spec: `torch._C._infer_size` — the right-aligned
broadcast of two shapes, `none` when they are incompatible. -/
def inferSize (a b : List ℕ) : Option (List ℕ) :=
  (broadcastRev a.reverse b.reverse).map List.reverse

/-- How a shape is rendered inside an error message
(`"{}".format(torch.Size([...]))` prints `torch.Size([a, b, ...])`). -/
def renderSize (s : List ℕ) : String :=
  "torch.Size([" ++ String.intercalate ", " (s.map toString) ++ "])"

/-- `_get_batch_shape(bmat, bvec)` from the source: broadcast `bvec.shape`
against `bmat.shape[:-1]` and drop the last element of the result; on
failure raise `ValueError` with a message naming both shapes. -/
def getBatchShape (matShape vecShape : List ℕ) : Except String (List ℕ) :=
  match inferSize vecShape matShape.dropLast with
  | none => Except.error ("Incompatible batch shapes: vector " ++ renderSize vecShape ++
      ", matrix " ++ renderSize matShape)
  | some s => Except.ok s.dropLast

/-- Modelled from the spec: validity of `Tensor.expand(src → tgt)` in
reversed order — every source dimension must equal the aligned target
dimension or be 1, and the source may not be longer than the target. -/
def expandOkRev : List ℕ → List ℕ → Bool
  | [], _ => true
  | _ :: _, [] => false
  | x :: xs, y :: ys => (x == y || x == 1) && expandOkRev xs ys

/-- Modelled from the spec: validity of `Tensor.expand` from shape `src`
to shape `tgt` (right-aligned). -/
def expandOk (src tgt : List ℕ) : Bool :=
  expandOkRev src.reverse tgt.reverse

/-! ### Lemmas about the broadcast algebra -/

theorem combineDim_self (x : ℕ) : combineDim x x = some x := by
  simp [combineDim]

theorem combineDim_comm (x y : ℕ) : combineDim x y = combineDim y x := by
  unfold combineDim
  rcases eq_or_ne x y with hxy | hxy
  · subst hxy; simp
  · rw [if_neg hxy, if_neg (Ne.symm hxy)]
    by_cases hx : x = 1 <;> by_cases hy : y = 1
    · exact absurd (hx.trans hy.symm) hxy
    · simp [hx, hy]
    · simp [hx, hy]
    · simp [hx, hy]

theorem combineDim_absorb {x y d : ℕ} (h : combineDim x y = some d) :
    combineDim d y = some d := by
  unfold combineDim at h ⊢
  by_cases hxy : x = y <;> by_cases hx : x = 1 <;> by_cases hy : y = 1 <;>
    simp_all

theorem broadcastRev_nil_right (xs : List ℕ) : broadcastRev xs [] = some xs := by
  cases xs <;> rfl

theorem broadcastRev_self (xs : List ℕ) : broadcastRev xs xs = some xs := by
  induction xs with
  | nil => rfl
  | cons x xs ih => simp [broadcastRev, combineDim_self, ih]

theorem broadcastRev_absorb : ∀ {xs ys zs : List ℕ},
    broadcastRev xs ys = some zs → broadcastRev zs ys = some zs := by
  intro xs
  induction xs with
  | nil =>
    intro ys zs h
    simp only [broadcastRev] at h
    cases h
    exact broadcastRev_self ys
  | cons x xs ih =>
    intro ys zs h
    cases ys with
    | nil =>
      rw [broadcastRev_nil_right] at h
      cases h
      exact broadcastRev_nil_right _
    | cons y ys =>
      simp only [broadcastRev] at h
      cases hc : combineDim x y with
      | none => rw [hc] at h; simp at h
      | some d =>
        rw [hc] at h
        cases hr : broadcastRev xs ys with
        | none => rw [hr] at h; simp at h
        | some rest =>
          rw [hr] at h
          simp only [Option.some.injEq] at h
          cases h
          simp only [broadcastRev, combineDim_absorb hc, ih hr]

theorem broadcastRev_length : ∀ {xs ys zs : List ℕ},
    broadcastRev xs ys = some zs → zs.length = max xs.length ys.length := by
  intro xs
  induction xs with
  | nil =>
    intro ys zs h
    simp only [broadcastRev] at h
    cases h
    simp
  | cons x xs ih =>
    intro ys zs h
    cases ys with
    | nil =>
      rw [broadcastRev_nil_right] at h
      cases h
      simp
    | cons y ys =>
      simp only [broadcastRev] at h
      cases hc : combineDim x y with
      | none => rw [hc] at h; simp at h
      | some d =>
        rw [hc] at h
        cases hr : broadcastRev xs ys with
        | none => rw [hr] at h; simp at h
        | some rest =>
          rw [hr] at h
          simp only [Option.some.injEq] at h
          cases h
          simp [ih hr, Nat.succ_max_succ]

theorem broadcastRev_append_absorb : ∀ {ys xs : List ℕ} (e : List ℕ),
    broadcastRev xs ys = some xs → ys.length ≤ xs.length →
    broadcastRev (xs ++ e) ys = some (xs ++ e) := by
  intro ys
  induction ys with
  | nil => intro xs e _ _; exact broadcastRev_nil_right _
  | cons y ys ih =>
    intro xs e h hlen
    cases xs with
    | nil => simp at hlen
    | cons x xs =>
      simp only [broadcastRev] at h
      cases hc : combineDim x y with
      | none => rw [hc] at h; simp at h
      | some d =>
        rw [hc] at h
        cases hr : broadcastRev xs ys with
        | none => rw [hr] at h; simp at h
        | some rest =>
          rw [hr] at h
          simp only [Option.some.injEq, List.cons.injEq] at h
          obtain ⟨hd, hrest⟩ := h
          subst hd
          rw [hrest] at hr
          simp only [List.length_cons, Nat.succ_le_succ_iff] at hlen
          simp only [List.cons_append, broadcastRev, hc, List.append_eq, ih e hr hlen]

theorem broadcastRev_expandOk : ∀ {xs ys zs : List ℕ},
    broadcastRev xs ys = some zs → expandOkRev ys zs = true := by
  intro xs
  induction xs with
  | nil =>
    intro ys zs h
    simp only [broadcastRev] at h
    cases h
    induction ys with
    | nil => rfl
    | cons y ys ihy => simp [expandOkRev, ihy]
  | cons x xs ih =>
    intro ys zs h
    cases ys with
    | nil => simp [expandOkRev]
    | cons y ys =>
      simp only [broadcastRev] at h
      cases hc : combineDim x y with
      | none => rw [hc] at h; simp at h
      | some d =>
        rw [hc] at h
        cases hr : broadcastRev xs ys with
        | none => rw [hr] at h; simp at h
        | some rest =>
          rw [hr] at h
          simp only [Option.some.injEq] at h
          cases h
          have hyd : (y == d || y == 1) = true := by
            unfold combineDim at hc
            by_cases hxy : x = y <;> by_cases hx : x = 1 <;> by_cases hy : y = 1 <;>
              simp_all
          simp [expandOkRev, hyd, ih hr]

theorem expandOkRev_append {xs ys : List ℕ} (e : List ℕ)
    (h : expandOkRev xs ys = true) : expandOkRev xs (ys ++ e) = true := by
  induction xs generalizing ys with
  | nil => rfl
  | cons x xs ih =>
    cases ys with
    | nil => simp [expandOkRev] at h
    | cons y ys =>
      simp only [expandOkRev, Bool.and_eq_true] at h ⊢
      exact ⟨h.1, ih h.2⟩

theorem inferSize_snoc (xs ys : List ℕ) (a b : ℕ) :
    inferSize (xs ++ [a]) (ys ++ [b]) =
      match combineDim a b with
      | some d => (inferSize xs ys).map (· ++ [d])
      | none => none := by
  unfold inferSize
  rw [List.reverse_append, List.reverse_append]
  simp only [List.reverse_singleton, List.singleton_append]
  cases hc : combineDim a b with
  | none =>
    simp only [broadcastRev, hc]
    cases broadcastRev xs.reverse ys.reverse <;> rfl
  | some d =>
    simp only [broadcastRev, hc]
    cases broadcastRev xs.reverse ys.reverse <;> simp

theorem inferSize_comm (xs ys : List ℕ) : inferSize xs ys = inferSize ys xs := by
  unfold inferSize
  congr 1
  generalize xs.reverse = as
  generalize ys.reverse = bs
  induction as generalizing bs with
  | nil => cases bs <;> simp [broadcastRev, broadcastRev_nil_right]
  | cons a as ih =>
    cases bs with
    | nil => simp [broadcastRev, broadcastRev_nil_right]
    | cons b bs => simp only [broadcastRev, combineDim_comm a b, ih bs]

theorem inferSize_absorb {xs ys zs : List ℕ} (h : inferSize xs ys = some zs) :
    inferSize zs ys = some zs := by
  unfold inferSize at h ⊢
  cases hb : broadcastRev xs.reverse ys.reverse with
  | none => rw [hb] at h; simp at h
  | some r =>
    rw [hb] at h
    simp only [Option.map_some', Option.some.injEq] at h
    subst h
    rw [List.reverse_reverse]
    rw [broadcastRev_absorb hb]
    rfl

theorem inferSize_length {xs ys zs : List ℕ} (h : inferSize xs ys = some zs) :
    zs.length = max xs.length ys.length := by
  unfold inferSize at h
  cases hb : broadcastRev xs.reverse ys.reverse with
  | none => rw [hb] at h; simp at h
  | some r =>
    rw [hb] at h
    simp only [Option.map_some', Option.some.injEq] at h
    subst h
    have := broadcastRev_length hb
    simpa using this

theorem inferSize_prepend_absorb {xs ys : List ℕ} (e : List ℕ)
    (h : inferSize xs ys = some xs) (hlen : ys.length ≤ xs.length) :
    inferSize (e ++ xs) ys = some (e ++ xs) := by
  unfold inferSize at h ⊢
  cases hb : broadcastRev xs.reverse ys.reverse with
  | none => rw [hb] at h; simp at h
  | some r =>
    rw [hb] at h
    simp only [Option.map_some', Option.some.injEq] at h
    have hr : r = xs.reverse := by
      have := congrArg List.reverse h
      simpa using this
    subst hr
    rw [List.reverse_append]
    rw [broadcastRev_append_absorb e.reverse hb (by simpa using hlen)]
    simp

theorem dropLast_append_two (l : List ℕ) (a b : ℕ) :
    (l ++ [a, b]).dropLast = l ++ [a] := by
  have : l ++ [a, b] = (l ++ [a]) ++ [b] := by simp
  rw [this, List.dropLast_concat]

/-! ## The constructor model -/

/-- A tensor for the purposes of the constructor: a shape together with an
uninterpreted real payload (the constructor only inspects shapes and stores
the operands unchanged). -/
structure Tensor where
  shape : List ℕ
  data : List ℝ

/-- `Tensor.dim()`: the number of dimensions. -/
def Tensor.dim (t : Tensor) : ℕ := t.shape.length

/-- The error kinds of the module: `ParameterError` for the constructor's
own `ValueError`s, `ShapeError` for the resolver's. -/
inductive MVNError where
  | parameterError (msg : String)
  | shapeError (msg : String)
deriving DecidableEq

/-- Which covariance parameterization was supplied at construction. -/
inductive CovParam where
  | covariance (t : Tensor)
  | scaleTril (t : Tensor)

/-- The state of a constructed `MultivariateNormal` object. -/
structure MVN where
  loc : Tensor
  param : CovParam
  batchShape : List ℕ
  eventShape : List ℕ

/-- `loc.shape[-1:]` — the event shape taken from `loc`'s trailing dim. -/
def takeLastOne (s : List ℕ) : List ℕ := s.drop (s.length - 1)

/-- `MultivariateNormal.__init__` from the source: exactly one of
`covariance_matrix` / `scale_tril` must be given, the given one must have at
least 2 dimensions, the batch shape comes from `_get_batch_shape` against
`loc`, and the operands are stored unchanged. -/
def mkMultivariateNormal (loc : Tensor) (covariance scaleT : Option Tensor) :
    Except MVNError MVN :=
  let eventShape := takeLastOne loc.shape
  match covariance, scaleT with
  | none, none => Except.error (MVNError.parameterError
      "Exactly one of covariance_matrix or scale_tril may be specified (but not both).")
  | some _, some _ => Except.error (MVNError.parameterError
      "Exactly one of covariance_matrix or scale_tril may be specified (but not both).")
  | some c, none =>
    if c.dim < 2 then
      Except.error (MVNError.parameterError
        "covariance_matrix must be two-dimensional, with optional leading batch dimensions")
    else
      match getBatchShape c.shape loc.shape with
      | Except.error m => Except.error (MVNError.shapeError m)
      | Except.ok bs => Except.ok ⟨loc, CovParam.covariance c, bs, eventShape⟩
  | none, some s =>
    if s.dim < 2 then
      Except.error (MVNError.parameterError
        "scale_tril matrix must be two-dimensional, with optional leading batch dimensions")
    else
      match getBatchShape s.shape loc.shape with
      | Except.error m => Except.error (MVNError.shapeError m)
      | Except.ok bs => Except.ok ⟨loc, CovParam.scaleTril s, bs, eventShape⟩

/-! ## Claims about the shape resolver and the constructor -/

/-- Claim C3: for every pair of compatible shapes, the resolver returns all
but the last element of the right-aligned broadcast of `matrix_shape[:-1]`
with `vector_shape`; in particular `resolve((5,3,3),(3,)) = (5,)`,
`resolve((3,3),(4,3)) = (4,)` and `resolve((2,1,3,3),(5,3)) = (2,5)`. -/
theorem claim_C3_resolver_broadcast :
    (∀ matShape vecShape bs, inferSize matShape.dropLast vecShape = some bs →
      getBatchShape matShape vecShape = Except.ok bs.dropLast) ∧
    getBatchShape [5, 3, 3] [3] = Except.ok [5] ∧
    getBatchShape [3, 3] [4, 3] = Except.ok [4] ∧
    getBatchShape [2, 1, 3, 3] [5, 3] = Except.ok [2, 5] := by
  refine ⟨?_, rfl, rfl, rfl⟩
  intro mat vec bs h
  unfold getBatchShape
  rw [inferSize_comm vec mat.dropLast, h]

/-- Witness for C3 at `matrix_shape=(7,3,3)`, `vector_shape=(7,3)`. -/
theorem claim_C3_resolver_broadcast_witness :
    getBatchShape [7, 3, 3] [7, 3] = Except.ok [7] :=
  claim_C3_resolver_broadcast.1 [7, 3, 3] [7, 3] [7, 3] rfl

/-- Claim C4: whenever `matrix_shape[:-1]` and `vector_shape` cannot
broadcast, the resolver fails with an error whose message contains both
original shapes (as rendered by `torch.Size`); in particular
`matrix_shape=(4,3,3)` with `vector_shape=(5,3)` raises. -/
theorem claim_C4_resolver_error :
    (∀ matShape vecShape, inferSize matShape.dropLast vecShape = none →
      ∃ msg, getBatchShape matShape vecShape = Except.error msg ∧
        (renderSize vecShape).data <:+: msg.data ∧
        (renderSize matShape).data <:+: msg.data) ∧
    (∃ msg, getBatchShape [4, 3, 3] [5, 3] = Except.error msg) := by
  constructor
  · intro mat vec h
    rw [inferSize_comm] at h
    refine ⟨"Incompatible batch shapes: vector " ++ renderSize vec ++
        ", matrix " ++ renderSize mat, ?_, ?_, ?_⟩
    · unfold getBatchShape
      rw [h]
    · exact ⟨("Incompatible batch shapes: vector " : String).data,
        (", matrix " ++ renderSize mat).data, by simp⟩
    · exact ⟨("Incompatible batch shapes: vector " ++ renderSize vec ++
        ", matrix " : String).data, [], by simp⟩
  · exact ⟨"Incompatible batch shapes: vector " ++ renderSize [5, 3] ++
      ", matrix " ++ renderSize [4, 3, 3], rfl⟩

/-- Witness for C4 at `matrix_shape=(4,3,3)`, `vector_shape=(5,3)`. -/
theorem claim_C4_resolver_error_witness :
    ∃ msg, getBatchShape [4, 3, 3] [5, 3] = Except.error msg ∧
      (renderSize [5, 3]).data <:+: msg.data ∧
      (renderSize [4, 3, 3]).data <:+: msg.data :=
  claim_C4_resolver_error.1 [4, 3, 3] [5, 3] rfl

/-- Claim C10: the resolver checks the vector's trailing dimension against
the matrix's row dimension by broadcasting, not equality: with compatible
batch dimensions, a vector whose last dimension is 1 is accepted against an
`n×n` matrix for any `n`, the broadcast's resolved event dimension being
`n`, and it raises exactly when the two trailing dimensions differ with
neither equal to 1. -/
theorem claim_C10_trailing_broadcast :
    ∀ (n m : ℕ) (mbs vbs cbs : List ℕ), inferSize vbs mbs = some cbs →
      getBatchShape (mbs ++ [n, n]) (vbs ++ [1]) = Except.ok cbs ∧
      inferSize (vbs ++ [1]) (mbs ++ [n, n]).dropLast = some (cbs ++ [n]) ∧
      ((∃ msg, getBatchShape (mbs ++ [n, n]) (vbs ++ [m]) = Except.error msg) ↔
        (m ≠ n ∧ m ≠ 1 ∧ n ≠ 1)) := by
  intro n m mbs vbs cbs h
  have hdrop : (mbs ++ [n, n]).dropLast = mbs ++ [n] := dropLast_append_two mbs n n
  have h1n : combineDim 1 n = some n := by
    unfold combineDim
    rcases eq_or_ne (1 : ℕ) n with h1 | h1
    · rw [if_pos h1, h1]
    · rw [if_neg h1, if_pos rfl]
  have hbase : inferSize (vbs ++ [1]) (mbs ++ [n]) = some (cbs ++ [n]) := by
    rw [inferSize_snoc, h1n, h]
    rfl
  refine ⟨?_, ?_, ?_⟩
  · unfold getBatchShape
    rw [hdrop, hbase]
    show Except.ok (cbs ++ [n]).dropLast = Except.ok cbs
    rw [List.dropLast_concat]
  · rw [hdrop]; exact hbase
  · unfold getBatchShape
    rw [hdrop, inferSize_snoc]
    constructor
    · intro ⟨msg, hmsg⟩
      by_contra hcon
      have hc : ∃ d, combineDim m n = some d := by
        unfold combineDim
        by_cases h1 : m = n
        · exact ⟨m, by rw [if_pos h1]⟩
        · by_cases h2 : m = 1
          · exact ⟨n, by rw [if_neg h1, if_pos h2]⟩
          · have h3 : n = 1 := by tauto
            exact ⟨m, by rw [if_neg h1, if_neg h2, if_pos h3]⟩
      obtain ⟨d, hd⟩ := hc
      rw [hd, h] at hmsg
      simp at hmsg
    · intro ⟨h1, h2, h3⟩
      have hc : combineDim m n = none := by
        unfold combineDim
        rw [if_neg h1, if_neg h2, if_neg h3]
      rw [hc]
      exact ⟨_, rfl⟩

/-- Witness for C10 at `n=3`, `m=5`, batch dims `(2,)` against `(2,)`. -/
theorem claim_C10_trailing_broadcast_witness :
    getBatchShape [2, 3, 3] [2, 1] = Except.ok [2] ∧
    inferSize [2, 1] ([2, 3, 3] : List ℕ).dropLast = some [2, 3] ∧
    ((∃ msg, getBatchShape [2, 3, 3] [2, 5] = Except.error msg) ↔
      ((5 : ℕ) ≠ 3 ∧ (5 : ℕ) ≠ 1 ∧ (3 : ℕ) ≠ 1)) :=
  claim_C10_trailing_broadcast 3 5 [2] [2] [2] rfl

/-- Claim C7: construction fails with a `ParameterError` exactly when both
of `covariance_matrix` and `scale_tril` are supplied, or neither is, or the
supplied matrix parameter has fewer than 2 dimensions; for every other
input construction succeeds (up to shape compatibility), storing `loc` and
the supplied matrix parameter unchanged. -/
theorem claim_C7_constructor_errors : ∀ (loc : Tensor) (cov scl : Option Tensor),
    ((∃ m, mkMultivariateNormal loc cov scl = Except.error (MVNError.parameterError m)) ↔
      ((cov = none ∧ scl = none) ∨ (∃ c s, cov = some c ∧ scl = some s) ∨
       (∃ c, cov = some c ∧ scl = none ∧ c.dim < 2) ∨
       (∃ s, cov = none ∧ scl = some s ∧ s.dim < 2))) ∧
    (∀ c bs, cov = some c → scl = none → ¬c.dim < 2 →
      getBatchShape c.shape loc.shape = Except.ok bs →
      mkMultivariateNormal loc cov scl =
        Except.ok ⟨loc, CovParam.covariance c, bs, takeLastOne loc.shape⟩) ∧
    (∀ s bs, cov = none → scl = some s → ¬s.dim < 2 →
      getBatchShape s.shape loc.shape = Except.ok bs →
      mkMultivariateNormal loc cov scl =
        Except.ok ⟨loc, CovParam.scaleTril s, bs, takeLastOne loc.shape⟩) := by
  intro loc cov scl
  refine ⟨?_, ?_, ?_⟩
  · constructor
    · intro ⟨m, hm⟩
      match cov, scl with
      | none, none => exact Or.inl ⟨rfl, rfl⟩
      | some c, some s => exact Or.inr (Or.inl ⟨c, s, rfl, rfl⟩)
      | some c, none =>
        by_cases hdim : c.dim < 2
        · exact Or.inr (Or.inr (Or.inl ⟨c, rfl, rfl, hdim⟩))
        · exfalso
          simp only [mkMultivariateNormal] at hm
          rw [if_neg hdim] at hm
          cases hbs : getBatchShape c.shape loc.shape with
          | error e => rw [hbs] at hm; simp at hm
          | ok bs => rw [hbs] at hm; simp at hm
      | none, some s =>
        by_cases hdim : s.dim < 2
        · exact Or.inr (Or.inr (Or.inr ⟨s, rfl, rfl, hdim⟩))
        · exfalso
          simp only [mkMultivariateNormal] at hm
          rw [if_neg hdim] at hm
          cases hbs : getBatchShape s.shape loc.shape with
          | error e => rw [hbs] at hm; simp at hm
          | ok bs => rw [hbs] at hm; simp at hm
    · intro h
      rcases h with ⟨hc, hs⟩ | ⟨c, s, hc, hs⟩ | ⟨c, hc, hs, hdim⟩ | ⟨s, hc, hs, hdim⟩
      · subst hc; subst hs; exact ⟨_, rfl⟩
      · subst hc; subst hs; exact ⟨_, rfl⟩
      · subst hc; subst hs
        refine ⟨"covariance_matrix must be two-dimensional, with optional leading batch dimensions", ?_⟩
        simp only [mkMultivariateNormal]
        rw [if_pos hdim]
      · subst hc; subst hs
        refine ⟨"scale_tril matrix must be two-dimensional, with optional leading batch dimensions", ?_⟩
        simp only [mkMultivariateNormal]
        rw [if_pos hdim]
  · intro c bs hc hs hdim hbs
    subst hc; subst hs
    simp only [mkMultivariateNormal]
    rw [if_neg hdim, hbs]
  · intro s bs hc hs hdim hbs
    subst hc; subst hs
    simp only [mkMultivariateNormal]
    rw [if_neg hdim, hbs]

/-- Witness for C7: a 2-dimensional covariance with a length-2 `loc`
constructs successfully with both operands stored unchanged. -/
theorem claim_C7_constructor_errors_witness :
    mkMultivariateNormal ⟨[2], [0, 0]⟩ (some ⟨[2, 2], [1, 0, 0, 1]⟩) none =
      Except.ok ⟨⟨[2], [0, 0]⟩, CovParam.covariance ⟨[2, 2], [1, 0, 0, 1]⟩, [],
        takeLastOne [2]⟩ :=
  (claim_C7_constructor_errors ⟨[2], [0, 0]⟩ (some ⟨[2, 2], [1, 0, 0, 1]⟩) none).2.1
    ⟨[2, 2], [1, 0, 0, 1]⟩ [] rfl rfl (by norm_num [Tensor.dim]) rfl

/-! ## Per-batch-item linear algebra over ℝ

The batched routines broadcast and flatten their operands' batch dimensions
and then apply one uniform per-item routine; the definitions below embed
that per-item routine on a single `n×n` item. -/

/-- Lower-triangular predicate: all entries above the diagonal vanish. -/
def IsLowerTri {n : ℕ} (L : Matrix (Fin n) (Fin n) ℝ) : Prop :=
  ∀ i j : Fin n, (i : ℕ) < (j : ℕ) → L i j = 0

/-- `_batch_diag` on one batch item: the flatten-and-stride selection
`view(shape[:-2] + (-1,))[..., ::n+1]` picks out exactly the diagonal. -/
def batchDiagItem {n : ℕ} (L : Matrix (Fin n) (Fin n) ℝ) : Fin n → ℝ :=
  fun i => L i i

/-- The `log_det` term of `log_prob` and `entropy`:
`_batch_diag(scale_tril).abs().log().sum(-1)` on one batch item. -/
noncomputable def logDetItem {n : ℕ} (L : Matrix (Fin n) (Fin n) ℝ) : ℝ :=
  ∑ i, Real.log |batchDiagItem L i|

/-- `_batch_mahalanobis(L, x)` on one flattened batch item: invert the
transpose (`torch.inverse(Li.t())`, the mathematical matrix inverse,
modelled by `Matrix.inv`), multiply elementwise with the broadcast
`x.unsqueeze(-1)`, sum over the second-to-last axis, square, and sum over
the last axis. -/
noncomputable def batchMahalanobisItem {n : ℕ} (L : Matrix (Fin n) (Fin n) ℝ)
    (x : Fin n → ℝ) : ℝ :=
  ∑ j, (∑ i, x i * (L.transpose)⁻¹ i j) ^ 2

/-- `_batch_mv` on one batch item: `torch.bmm` of an `n×n` matrix with an
`n×1` column followed by `squeeze(-1)` is the matrix-vector product. -/
def batchMvItem {n : ℕ} (M : Matrix (Fin n) (Fin n) ℝ) (v : Fin n → ℝ) : Fin n → ℝ :=
  M.mulVec v

/-- The derived `covariance_matrix` property on one batch item:
`bmm(flat_scale_tril, flat_scale_tril.transpose(-1, -2))`. -/
def covFromScaleItem {n : ℕ} (L : Matrix (Fin n) (Fin n) ℝ) :
    Matrix (Fin n) (Fin n) ℝ :=
  L * L.transpose

/-- `MultivariateNormal.log_prob(value)` on one batch item:
`-0.5*(M + n*log(2π)) - log_det`. -/
noncomputable def logProbItem {n : ℕ} (L : Matrix (Fin n) (Fin n) ℝ)
    (loc value : Fin n → ℝ) : ℝ :=
  -0.5 * (batchMahalanobisItem L (value - loc) + n * Real.log (2 * Real.pi)) -
    logDetItem L

/-- `MultivariateNormal.entropy()` on one batch item (the value that is
broadcast to `batch_shape` when the latter is nonempty). -/
noncomputable def entropyItem {n : ℕ} (L : Matrix (Fin n) (Fin n) ℝ) : ℝ :=
  0.5 * (1 + Real.log (2 * Real.pi)) * n + logDetItem L

/-- `MultivariateNormal.rsample` on one batch item: the reparameterized
path `loc + _batch_mv(scale_tril, eps)` applied to the drawn noise `eps`. -/
def rsampleItem {n : ℕ} (loc : Fin n → ℝ) (L : Matrix (Fin n) (Fin n) ℝ)
    (eps : Fin n → ℝ) : Fin n → ℝ :=
  loc + batchMvItem L eps

/-- Claim C2: for every invertible lower-triangular `L` and every vector
`x` (per batch item), `_batch_mahalanobis(L, x)` — inverting the transpose,
multiplying elementwise with the broadcast `x`, summing over the
second-to-last axis, squaring, summing over the last axis — equals the
squared Mahalanobis distance `xᵀ (L Lᵀ)⁻¹ x`. -/
theorem claim_C2_mahalanobis {n : ℕ} (L : Matrix (Fin n) (Fin n) ℝ) (x : Fin n → ℝ)
    (hL : IsLowerTri L) (hdet : IsUnit L.det) :
    batchMahalanobisItem L x = Matrix.dotProduct x (((L * L.transpose)⁻¹).mulVec x) := by
  clear hL hdet
  have hz : ∀ j, (∑ i, x i * (L.transpose)⁻¹ i j) = (L⁻¹.mulVec x) j := by
    intro j
    rw [← Matrix.transpose_nonsing_inv]
    simp only [Matrix.mulVec, Matrix.dotProduct, Matrix.transpose_apply]
    exact Finset.sum_congr rfl fun i _ => mul_comm _ _
  calc batchMahalanobisItem L x
      = ∑ j, ((L⁻¹.mulVec x) j) ^ 2 := by
        unfold batchMahalanobisItem
        exact Finset.sum_congr rfl fun j _ => by rw [hz j]
    _ = Matrix.dotProduct (L⁻¹.mulVec x) (L⁻¹.mulVec x) := by
        simp [Matrix.dotProduct, sq]
    _ = Matrix.dotProduct x (((L * L.transpose)⁻¹).mulVec x) := by
        rw [Matrix.mul_inv_rev, ← Matrix.mulVec_mulVec, ← Matrix.transpose_nonsing_inv]
        conv_rhs => rw [Matrix.dotProduct_mulVec, Matrix.vecMul_transpose]

/-- Witness for C2 at `L = I₂`, `x = (1, 2)`. -/
theorem claim_C2_mahalanobis_witness :
    IsLowerTri (1 : Matrix (Fin 2) (Fin 2) ℝ) ∧
    IsUnit (1 : Matrix (Fin 2) (Fin 2) ℝ).det ∧
    batchMahalanobisItem (1 : Matrix (Fin 2) (Fin 2) ℝ) ![1, 2] =
      Matrix.dotProduct ![1, 2]
        ((((1 : Matrix (Fin 2) (Fin 2) ℝ) * (1 : Matrix (Fin 2) (Fin 2) ℝ).transpose)⁻¹).mulVec ![1, 2]) := by
  have h1 : IsLowerTri (1 : Matrix (Fin 2) (Fin 2) ℝ) :=
    fun i j h => Matrix.one_apply_ne (Fin.ne_of_lt h)
  have h2 : IsUnit (1 : Matrix (Fin 2) (Fin 2) ℝ).det := by
    rw [Matrix.det_one]; exact isUnit_one
  exact ⟨h1, h2, claim_C2_mahalanobis 1 ![1, 2] h1 h2⟩

/-- Flip the sign of the `k`-th diagonal entry of `L`, keeping every other
entry fixed. -/
def flipDiag {n : ℕ} (L : Matrix (Fin n) (Fin n) ℝ) (k : Fin n) :
    Matrix (Fin n) (Fin n) ℝ :=
  Matrix.of fun i j => if i = k ∧ j = k then -L i j else L i j

/-- Claim C9: the `log_det` term of `log_prob`, and `entropy()`, depend on
the diagonal of `scale_tril` only through its absolute value: flipping the
sign of any diagonal entry (no positivity assumed) changes neither. -/
theorem claim_C9_diag_sign_invariance {n : ℕ} (L : Matrix (Fin n) (Fin n) ℝ)
    (k : Fin n) :
    logDetItem (flipDiag L k) = logDetItem L ∧
    entropyItem (flipDiag L k) = entropyItem L := by
  have hlog : logDetItem (flipDiag L k) = logDetItem L := by
    unfold logDetItem batchDiagItem flipDiag
    refine Finset.sum_congr rfl fun i _ => ?_
    by_cases hik : i = k
    · subst hik
      simp [Matrix.of_apply, abs_neg]
    · simp [Matrix.of_apply, hik]
  exact ⟨hlog, by unfold entropyItem; rw [hlog]⟩

/-! ## Cholesky factorization (`_batch_potrf_lower` per item) -/

/-- Modelled from the spec: `torch.Tensor.potrf(upper=False)`
(`BatchedCholeskyLower`, repository code not included here) — the standard
Cholesky–Banachiewicz recursion producing the lower-triangular factor.
Entries are indexed by `ℕ`, out-of-range indices giving 0. -/
noncomputable def cholAux {n : ℕ} (A : Matrix (Fin n) (Fin n) ℝ) (i j : ℕ) : ℝ :=
  if h : i < n ∧ j < n then
    if hji : j < i then
      (A ⟨i, h.1⟩ ⟨j, h.2⟩ -
        ∑ k ∈ (Finset.range j).attach, cholAux A i k.1 * cholAux A j k.1) /
        cholAux A j j
    else if hij : i < j then 0
    else
      Real.sqrt (A ⟨i, h.1⟩ ⟨j, h.2⟩ -
        ∑ k ∈ (Finset.range j).attach, (cholAux A j k.1) ^ 2)
  else 0
termination_by j * n + i
decreasing_by
  · have hk := k.2
    rw [Finset.mem_range] at hk
    have hn : 0 < n := Nat.lt_of_le_of_lt (Nat.zero_le i) h.1
    exact Nat.add_lt_add_right (mul_lt_mul_of_pos_right hk hn) i
  · have hk := k.2
    rw [Finset.mem_range] at hk
    have h1 : k.1 * n + n ≤ j * n := by
      have h2 : (k.1 + 1) * n ≤ j * n := mul_le_mul_right' (Nat.succ_le_of_lt hk) n
      rw [Nat.add_mul, one_mul] at h2
      exact h2
    omega
  · omega
  · have hk := k.2
    rw [Finset.mem_range] at hk
    have h1 : k.1 * n + n ≤ j * n := by
      have h2 : (k.1 + 1) * n ≤ j * n := mul_le_mul_right' (Nat.succ_le_of_lt hk) n
      rw [Nat.add_mul, one_mul] at h2
      exact h2
    omega

/-- `_batch_potrf_lower` on one batch item. -/
noncomputable def scaleFromCovItem {n : ℕ} (A : Matrix (Fin n) (Fin n) ℝ) :
    Matrix (Fin n) (Fin n) ℝ :=
  Matrix.of fun i j => cholAux A i.1 j.1

/-- Extend a matrix to `ℕ`-indices with 0 outside the range. -/
def extend0 {n : ℕ} (L : Matrix (Fin n) (Fin n) ℝ) (i j : ℕ) : ℝ :=
  if h : i < n ∧ j < n then L ⟨i, h.1⟩ ⟨j, h.2⟩ else 0

theorem extend0_in {n : ℕ} (L : Matrix (Fin n) (Fin n) ℝ) (i j : Fin n) :
    extend0 L i.1 j.1 = L i j := by
  unfold extend0
  rw [dif_pos ⟨i.isLt, j.isLt⟩]

/-- Splitting the Gram sum of a lower-triangular matrix at column `j ≤ i`:
entries beyond `j` contribute nothing. -/
theorem gram_sum_split {n : ℕ} (L : Matrix (Fin n) (Fin n) ℝ) (hL : IsLowerTri L)
    (i j : Fin n) (hji : (j : ℕ) ≤ (i : ℕ)) :
    ∑ k : Fin n, L i k * L j k =
      (∑ k ∈ Finset.range (j : ℕ), extend0 L i.1 k * extend0 L j.1 k) +
        L i j * L j j := by
  have hstep : ∀ k : Fin n, L i k * L j k =
      (fun m => extend0 L i.1 m * extend0 L j.1 m) (k : ℕ) := by
    intro k
    simp [extend0_in]
  calc ∑ k : Fin n, L i k * L j k
      = ∑ k : Fin n, (fun m => extend0 L i.1 m * extend0 L j.1 m) (k : ℕ) :=
        Finset.sum_congr rfl fun k _ => hstep k
    _ = ∑ k ∈ Finset.range n, extend0 L i.1 k * extend0 L j.1 k := by
        exact Fin.sum_univ_eq_sum_range (fun m => extend0 L i.1 m * extend0 L j.1 m) n
    _ = (∑ k ∈ Finset.range (j : ℕ), extend0 L i.1 k * extend0 L j.1 k) +
          ∑ k ∈ Finset.Ico (j : ℕ) n, extend0 L i.1 k * extend0 L j.1 k := by
        rw [Finset.range_eq_Ico, ← Finset.sum_Ico_consecutive _ (Nat.zero_le (j : ℕ))
          (le_of_lt j.isLt), ← Finset.range_eq_Ico]
    _ = (∑ k ∈ Finset.range (j : ℕ), extend0 L i.1 k * extend0 L j.1 k) +
          L i j * L j j := by
        congr 1
        rw [Finset.sum_eq_single_of_mem (j : ℕ)
          (Finset.mem_Ico.mpr ⟨le_refl _, j.isLt⟩)]
        · rw [extend0_in L i j, extend0_in L j j]
        · intro b hb hbj
          have hjb : (j : ℕ) < b := lt_of_le_of_ne (Finset.mem_Ico.mp hb).1 (Ne.symm hbj)
          have hbn : b < n := (Finset.mem_Ico.mp hb).2
          have : extend0 L j.1 b = 0 := by
            unfold extend0
            rw [dif_pos ⟨j.isLt, hbn⟩]
            exact hL j ⟨b, hbn⟩ hjb
          rw [this, mul_zero]

/-- The Cholesky recursion applied to `L Lᵀ` reconstructs a lower-triangular
`L` with positive diagonal, entry by entry. -/
theorem cholAux_reconstruct {n : ℕ} (L : Matrix (Fin n) (Fin n) ℝ)
    (hL : IsLowerTri L) (hpos : ∀ i, 0 < L i i) :
    ∀ p i j, j * n + i = p → cholAux (L * L.transpose) i j = extend0 L i j := by
  intro p
  induction p using Nat.strong_induction_on with
  | _ p IH =>
    intro i j hp
    have hA : ∀ (hi : i < n) (hj : j < n),
        (L * L.transpose) ⟨i, hi⟩ ⟨j, hj⟩ =
          ∑ k : Fin n, L ⟨i, hi⟩ k * L ⟨j, hj⟩ k := by
      intro hi hj
      simp [Matrix.mul_apply, Matrix.transpose_apply]
    rw [cholAux]
    by_cases h : i < n ∧ j < n
    · rw [dif_pos h]
      by_cases hji : j < i
      · rw [dif_pos hji]
        have hsub : ∀ m, ∀ km : m ∈ Finset.range j,
            cholAux (L * L.transpose) i m = extend0 L i m ∧
            cholAux (L * L.transpose) j m = extend0 L j m := by
          intro m km
          rw [Finset.mem_range] at km
          have hn : 0 < n := Nat.lt_of_le_of_lt (Nat.zero_le i) h.1
          constructor
          · refine IH (m * n + i) ?_ i m rfl
            subst hp
            exact Nat.add_lt_add_right (mul_lt_mul_of_pos_right km hn) i
          · refine IH (m * n + j) ?_ j m rfl
            subst hp
            have h2 : (m + 1) * n ≤ j * n := mul_le_mul_right' (Nat.succ_le_of_lt km) n
            rw [Nat.add_mul, one_mul] at h2
            have h3 : j < n := h.2
            omega
        have hjj : cholAux (L * L.transpose) j j = extend0 L j j := by
          refine IH (j * n + j) ?_ j j rfl
          omega
        rw [Finset.sum_attach (Finset.range j)
          (fun m => cholAux (L * L.transpose) i m * cholAux (L * L.transpose) j m)]
        rw [Finset.sum_congr rfl fun m km => by
          rw [(hsub m km).1, (hsub m km).2]]
        rw [hjj, hA h.1 h.2]
        have hidx : extend0 L i j =
            L ⟨i, h.1⟩ ⟨j, h.2⟩ := by unfold extend0; rw [dif_pos h]
        have hjidx : extend0 L j j =
            L ⟨j, h.2⟩ ⟨j, h.2⟩ := by unfold extend0; rw [dif_pos ⟨h.2, h.2⟩]
        rw [hjidx, hidx]
        have hsplit := gram_sum_split L hL ⟨i, h.1⟩ ⟨j, h.2⟩ (le_of_lt hji)
        rw [hsplit]
        have hcong : ∑ k ∈ Finset.range j, extend0 L i k * extend0 L j k =
            ∑ k ∈ Finset.range ((⟨j, h.2⟩ : Fin n) : ℕ),
              extend0 L ((⟨i, h.1⟩ : Fin n) : ℕ) k * extend0 L ((⟨j, h.2⟩ : Fin n) : ℕ) k := rfl
        rw [hcong]
        rw [add_sub_cancel_left]
        exact mul_div_cancel_right₀ _ (ne_of_gt (hpos ⟨j, h.2⟩))
      · rw [dif_neg hji]
        by_cases hij : i < j
        · rw [dif_pos hij]
          unfold extend0
          rw [dif_pos h]
          exact (hL ⟨i, h.1⟩ ⟨j, h.2⟩ hij).symm
        · rw [dif_neg hij]
          have hije : i = j := by omega
          subst hije
          have hsub : ∀ m, ∀ km : m ∈ Finset.range i,
              cholAux (L * L.transpose) i m = extend0 L i m := by
            intro m km
            rw [Finset.mem_range] at km
            have hn : 0 < n := Nat.lt_of_le_of_lt (Nat.zero_le i) h.1
            refine IH (m * n + i) ?_ i m rfl
            subst hp
            exact Nat.add_lt_add_right (mul_lt_mul_of_pos_right km hn) i
          rw [Finset.sum_attach (Finset.range i)
            (fun m => (cholAux (L * L.transpose) i m) ^ 2)]
          rw [Finset.sum_congr rfl fun m km => by rw [hsub m km]]
          rw [hA h.1 h.2]
          have hsplit := gram_sum_split L hL ⟨i, h.1⟩ ⟨i, h.2⟩ (le_refl _)
          rw [show ∑ k ∈ Finset.range i, extend0 L i k ^ 2 =
              ∑ k ∈ Finset.range i, extend0 L i k * extend0 L i k from
            Finset.sum_congr rfl fun m _ => pow_two (extend0 L i m)]
          rw [hsplit, add_sub_cancel_left]
          have hd : extend0 L i i = L ⟨i, h.1⟩ ⟨i, h.2⟩ := by
            unfold extend0; rw [dif_pos h]
          rw [hd, ← sq]
          exact Real.sqrt_sq (le_of_lt (hpos ⟨i, h.1⟩))
    · rw [dif_neg h]
      unfold extend0
      rw [dif_neg h]

/-- Round trip: the per-item `_batch_potrf_lower` recovers a valid
`scale_tril` from its Gram product. -/
theorem scaleFromCov_roundtrip {n : ℕ} (L : Matrix (Fin n) (Fin n) ℝ)
    (hL : IsLowerTri L) (hpos : ∀ i, 0 < L i i) :
    scaleFromCovItem (covFromScaleItem L) = L := by
  ext i j
  show cholAux (L * L.transpose) i.1 j.1 = L i j
  rw [cholAux_reconstruct L hL hpos (j.1 * n + i.1) i.1 j.1 rfl]
  exact extend0_in L i j

theorem isLowerTri_one {n : ℕ} : IsLowerTri (1 : Matrix (Fin n) (Fin n) ℝ) :=
  fun i j h => Matrix.one_apply_ne (Fin.ne_of_lt h)

theorem one_diag_pos {n : ℕ} : ∀ i, (0 : ℝ) < (1 : Matrix (Fin n) (Fin n) ℝ) i i := by
  intro i
  rw [Matrix.one_apply_eq]
  norm_num

theorem scaleFromCovItem_one {n : ℕ} :
    scaleFromCovItem (1 : Matrix (Fin n) (Fin n) ℝ) = 1 := by
  have hcov : covFromScaleItem (1 : Matrix (Fin n) (Fin n) ℝ) = 1 := by
    unfold covFromScaleItem
    rw [Matrix.transpose_one, mul_one]
  calc scaleFromCovItem (1 : Matrix (Fin n) (Fin n) ℝ)
      = scaleFromCovItem (covFromScaleItem 1) := by rw [hcov]
    _ = 1 := scaleFromCov_roundtrip 1 isLowerTri_one one_diag_pos

/-! ## Shape models of `rsample` and `entropy` -/

/-- Modelled from the spec: `Distribution._extended_shape(sample_shape)`
(repository code not included here) — `sample_shape + batch_shape +
event_shape`. -/
def extendedShape (sampleShape batchShape eventShape : List ℕ) : List ℕ :=
  sampleShape ++ batchShape ++ eventShape

/-- `_batch_mv` at the shape level: read `n = bvec.size(-1)`, resolve the
batch shape, `expand` both operands (`bmat` to `batch_shape + (n, n)`,
`bvec.unsqueeze(-1)` to `batch_shape + (n, 1)`), and return
`batch_shape + (n,)`. -/
def batchMvShapeModel (matShape vecShape : List ℕ) : Except String (List ℕ) :=
  match vecShape.getLast? with
  | none => Except.error "dimension out of range"
  | some n =>
    match getBatchShape matShape vecShape with
    | Except.error e => Except.error e
    | Except.ok bs =>
      if expandOk matShape (bs ++ [n, n]) then
        if expandOk (vecShape ++ [1]) (bs ++ [n, 1]) then Except.ok (bs ++ [n])
        else Except.error "expand: invalid target size"
      else Except.error "expand: invalid target size"

/-- `MultivariateNormal.rsample(sample_shape)` at the shape level: `eps` has
the extended shape, and the result is `loc + _batch_mv(scale_tril, eps)`
(elementwise add with broadcasting). -/
def rsampleShapeModel (locShape matShape batchShape eventShape sampleShape :
    List ℕ) : Except String (List ℕ) :=
  match batchMvShapeModel matShape
      (extendedShape sampleShape batchShape eventShape) with
  | Except.error e => Except.error e
  | Except.ok mv =>
    match inferSize locShape mv with
    | none => Except.error "inconsistent tensor size in add"
    | some s => Except.ok s

/-- `MultivariateNormal.entropy()` at the shape level: `H` has the shape of
`log_det` (= `scale_tril.shape[:-2]`); with an empty `batch_shape` it is
returned unbroadcast, otherwise it is `expand`ed to `batch_shape`. -/
def entropyShapeModel (matShape batchShape : List ℕ) : Option (List ℕ) :=
  let hShape := matShape.dropLast.dropLast
  if batchShape.length = 0 then some hShape
  else if expandOk hShape batchShape then some batchShape else none

theorem expandOkRev_self (xs : List ℕ) : expandOkRev xs xs = true := by
  induction xs with
  | nil => rfl
  | cons x xs ih => simp [expandOkRev, ih]

theorem inferSize_to_rev {xs ys zs : List ℕ} (h : inferSize xs ys = some zs) :
    broadcastRev xs.reverse ys.reverse = some zs.reverse := by
  unfold inferSize at h
  cases hb : broadcastRev xs.reverse ys.reverse with
  | none => rw [hb] at h; simp at h
  | some r =>
    rw [hb] at h
    simp only [Option.map_some', Option.some.injEq] at h
    subst h
    rw [List.reverse_reverse]

/-- A successful construction-time resolution of
`_get_batch_shape(scale_tril, loc)` for a well-formed `n×n` matrix shape and
length-`n` vector shape is exactly a broadcast of the two batch parts. -/
theorem construction_batch {n : ℕ} {mbs lbs bs : List ℕ}
    (h : getBatchShape (mbs ++ [n, n]) (lbs ++ [n]) = Except.ok bs) :
    inferSize lbs mbs = some bs := by
  unfold getBatchShape at h
  rw [dropLast_append_two] at h
  cases hi : inferSize (lbs ++ [n]) (mbs ++ [n]) with
  | none => rw [hi] at h; simp at h
  | some s =>
    rw [hi] at h
    simp only [Except.ok.injEq] at h
    rw [inferSize_snoc, combineDim_self] at hi
    cases him : inferSize lbs mbs with
    | none => rw [him] at hi; simp at hi
    | some s0 =>
      rw [him] at hi
      simp only [Option.map_some', Option.some.injEq] at hi
      rw [← hi, List.dropLast_concat] at h
      rw [← h]

/-! ## Claims about the mathematical core -/

/-- Claim C8: the two parameterizations are mutually consistent in both
derivation directions: for every valid `scale_tril` the derived
`covariance_matrix` is `scale_tril @ scale_trilᵀ`, and the derived
`scale_tril` of that covariance (via `BatchedCholeskyLower`) reconstructs
`scale_tril`, hence satisfies `L Lᵀ = covariance_matrix`. -/
theorem claim_C8_parameterization_consistency {n : ℕ}
    (L : Matrix (Fin n) (Fin n) ℝ) (hL : IsLowerTri L) (hpos : ∀ i, 0 < L i i) :
    covFromScaleItem L = L * L.transpose ∧
    scaleFromCovItem (covFromScaleItem L) = L ∧
    covFromScaleItem (scaleFromCovItem (covFromScaleItem L)) =
      covFromScaleItem L := by
  have h := scaleFromCov_roundtrip L hL hpos
  exact ⟨rfl, h, by rw [h]⟩

/-- Witness for C8 at `L = [[2,0],[1,1]]`. -/
theorem claim_C8_parameterization_consistency_witness :
    IsLowerTri (!![2, 0; 1, 1] : Matrix (Fin 2) (Fin 2) ℝ) ∧
    (∀ i, 0 < (!![2, 0; 1, 1] : Matrix (Fin 2) (Fin 2) ℝ) i i) ∧
    (covFromScaleItem (!![2, 0; 1, 1] : Matrix (Fin 2) (Fin 2) ℝ) =
        !![2, 0; 1, 1] * (!![2, 0; 1, 1] : Matrix (Fin 2) (Fin 2) ℝ).transpose ∧
      scaleFromCovItem (covFromScaleItem (!![2, 0; 1, 1] : Matrix (Fin 2) (Fin 2) ℝ)) =
        !![2, 0; 1, 1] ∧
      covFromScaleItem (scaleFromCovItem
          (covFromScaleItem (!![2, 0; 1, 1] : Matrix (Fin 2) (Fin 2) ℝ))) =
        covFromScaleItem (!![2, 0; 1, 1] : Matrix (Fin 2) (Fin 2) ℝ)) := by
  have hL : IsLowerTri (!![2, 0; 1, 1] : Matrix (Fin 2) (Fin 2) ℝ) := by
    intro i j hij
    fin_cases i <;> fin_cases j <;> simp_all
  have hpos : ∀ i, 0 < (!![2, 0; 1, 1] : Matrix (Fin 2) (Fin 2) ℝ) i i := by
    intro i
    fin_cases i <;> norm_num
  exact ⟨hL, hpos, claim_C8_parameterization_consistency !![2, 0; 1, 1] hL hpos⟩

/-- Claim C1: `log_prob(value)` equals
`-0.5*(M + n*log(2π)) - log_det` with `M = BatchedMahalanobis(scale_tril,
value - loc)` and `log_det = Σ log |diag(scale_tril)|`; in particular, for
`loc = [0,0]` and `covariance_matrix = I₂` (so `scale_tril` is the derived
Cholesky factor), `log_prob([0,0]) = -log(2π)`. -/
theorem claim_C1_log_prob :
    (∀ (n : ℕ) (L : Matrix (Fin n) (Fin n) ℝ) (loc value : Fin n → ℝ),
      logProbItem L loc value =
        -0.5 * (batchMahalanobisItem L (value - loc) +
          n * Real.log (2 * Real.pi)) - ∑ i, Real.log |L i i|) ∧
    logProbItem (scaleFromCovItem (1 : Matrix (Fin 2) (Fin 2) ℝ)) ![0, 0] ![0, 0] =
      -Real.log (2 * Real.pi) := by
  constructor
  · intro n L loc value
    rfl
  · rw [scaleFromCovItem_one]
    unfold logProbItem batchMahalanobisItem logDetItem batchDiagItem
    have hdiff : (![0, 0] - ![0, 0] : Fin 2 → ℝ) = fun _ => 0 := by
      funext i
      simp
    rw [hdiff]
    simp [Matrix.one_apply_eq, Real.log_one]
    ring

/-- Claim C5: `entropy()` equals `0.5*(1 + log 2π)*n + log_det`, broadcast
to `batch_shape` (returned unbroadcast when `batch_shape` is empty, in
which case the matrix parameter itself carries no batch dims); in
particular, for `n = 2` and `covariance_matrix = I₂`,
`entropy() = 1 + log(2π)`. -/
theorem claim_C5_entropy :
    (∀ (n : ℕ) (L : Matrix (Fin n) (Fin n) ℝ),
      entropyItem L = 0.5 * (1 + Real.log (2 * Real.pi)) * n +
        ∑ i, Real.log |L i i|) ∧
    entropyItem (scaleFromCovItem (1 : Matrix (Fin 2) (Fin 2) ℝ)) =
      1 + Real.log (2 * Real.pi) ∧
    (∀ (n : ℕ) (mbs lbs bs : List ℕ),
      getBatchShape (mbs ++ [n, n]) (lbs ++ [n]) = Except.ok bs →
      entropyShapeModel (mbs ++ [n, n]) bs = some bs ∧ (bs = [] → mbs = [])) := by
  refine ⟨fun n L => rfl, ?_, ?_⟩
  · rw [scaleFromCovItem_one]
    unfold entropyItem logDetItem batchDiagItem
    simp [Matrix.one_apply_eq, Real.log_one]
    ring
  · intro n mbs lbs bs h
    have hib : inferSize lbs mbs = some bs := construction_batch h
    have hlen : bs.length = max lbs.length mbs.length := inferSize_length hib
    have hmbs_le : mbs.length ≤ bs.length := by omega
    have hmbs_nil : bs = [] → mbs = [] := by
      intro hbs
      subst hbs
      simp at hlen
      refine List.length_eq_zero.mp ?_
      omega
    have hdrop : (mbs ++ [n, n]).dropLast.dropLast = mbs := by
      rw [dropLast_append_two, List.dropLast_concat]
    constructor
    · unfold entropyShapeModel
      by_cases hbs : bs.length = 0
      · rw [if_pos hbs]
        rw [hdrop, hmbs_nil (List.length_eq_zero.mp hbs), List.length_eq_zero.mp hbs]
      · rw [if_neg hbs]
        have hexp : expandOk ((mbs ++ [n, n]).dropLast.dropLast) bs = true := by
          rw [hdrop]
          unfold expandOk
          exact broadcastRev_expandOk (inferSize_to_rev hib)
        rw [if_pos hexp]
    · exact hmbs_nil

/-- Witness for C5's shape conjunct at
`scale_tril.shape = (3,2,2)`, `loc.shape = (2,)`. -/
theorem claim_C5_entropy_witness :
    entropyShapeModel [3, 2, 2] [3] = some [3] ∧
      (([3] : List ℕ) = [] → ([3] : List ℕ) = []) :=
  claim_C5_entropy.2.2 2 [3] [] [3] rfl

/-- Claim C6: `rsample(sample_shape)` returns
`loc + _batch_mv(scale_tril, eps)` for the drawn `eps` of shape
`sample_shape + batch_shape + event_shape`, and the result has exactly
shape `sample_shape + batch_shape + event_shape`. -/
theorem claim_C6_sample_shape :
    (∀ (n : ℕ) (loc : Fin n → ℝ) (L : Matrix (Fin n) (Fin n) ℝ) (eps : Fin n → ℝ),
      rsampleItem loc L eps = loc + batchMvItem L eps) ∧
    (∀ (n : ℕ) (mbs lbs bs ss : List ℕ),
      getBatchShape (mbs ++ [n, n]) (lbs ++ [n]) = Except.ok bs →
      rsampleShapeModel (lbs ++ [n]) (mbs ++ [n, n]) bs [n] ss =
        Except.ok (ss ++ bs ++ [n])) := by
  constructor
  · intro n loc L eps
    rfl
  · intro n mbs lbs bs ss h
    have hib : inferSize lbs mbs = some bs := construction_batch h
    have hlen : bs.length = max lbs.length mbs.length := inferSize_length hib
    have hmbs_le : mbs.length ≤ bs.length := by omega
    have hlbs_le : lbs.length ≤ bs.length := by omega
    -- the extended shape of eps
    have hext : extendedShape ss bs [n] = (ss ++ bs) ++ [n] := rfl
    -- resolving _batch_mv's batch shape
    have h1 : inferSize bs mbs = some bs := inferSize_absorb hib
    have h2 : inferSize (ss ++ bs) mbs = some (ss ++ bs) :=
      inferSize_prepend_absorb ss h1 hmbs_le
    have h3 : inferSize ((ss ++ bs) ++ [n]) (mbs ++ [n]) = some ((ss ++ bs) ++ [n]) := by
      rw [inferSize_snoc, combineDim_self, h2]
      rfl
    have hbsr : getBatchShape (mbs ++ [n, n]) ((ss ++ bs) ++ [n]) =
        Except.ok (ss ++ bs) := by
      unfold getBatchShape
      rw [dropLast_append_two, h3]
      show Except.ok ((ss ++ bs) ++ [n]).dropLast = Except.ok (ss ++ bs)
      rw [List.dropLast_concat]
    -- the two expand checks
    have hexp1 : expandOk (mbs ++ [n, n]) ((ss ++ bs) ++ [n, n]) = true := by
      unfold expandOk
      rw [List.reverse_append, List.reverse_append]
      show expandOkRev (n :: n :: mbs.reverse) (n :: n :: (ss ++ bs).reverse) = true
      simp only [expandOkRev, beq_self_eq_true, Bool.true_or, Bool.true_and]
      rw [List.reverse_append]
      exact expandOkRev_append ss.reverse
        (broadcastRev_expandOk (inferSize_to_rev hib))
    have hexp2 : expandOk (((ss ++ bs) ++ [n]) ++ [1]) ((ss ++ bs) ++ [n, 1]) = true := by
      unfold expandOk
      have : ((ss ++ bs) ++ [n]) ++ [1] = (ss ++ bs) ++ [n, 1] := by
        rw [List.append_assoc]
        rfl
      rw [this]
      exact expandOkRev_self _
    -- the final add with loc broadcasts back to the same shape
    have h4 : inferSize lbs bs = some bs := by
      rw [inferSize_comm]
      exact inferSize_absorb (inferSize_comm lbs mbs ▸ hib)
    have h5 : inferSize lbs (ss ++ bs) = some (ss ++ bs) := by
      rw [inferSize_comm]
      exact inferSize_prepend_absorb ss (inferSize_comm lbs bs ▸ h4) hlbs_le
    have h6 : inferSize (lbs ++ [n]) ((ss ++ bs) ++ [n]) = some ((ss ++ bs) ++ [n]) := by
      rw [inferSize_snoc, combineDim_self, h5]
      rfl
    -- assemble
    unfold rsampleShapeModel batchMvShapeModel
    rw [hext, List.getLast?_concat, hbsr]
    simp only [hexp1, hexp2, if_true, h6]

/-- Witness for C6 at `scale_tril.shape = (3,2,2)`, `loc.shape = (2,)`,
`sample_shape = (5,)`: the sample shape is `(5,3,2)`. -/
theorem claim_C6_sample_shape_witness :
    rsampleShapeModel [2] [3, 2, 2] [3] [2] [5] = Except.ok [5, 3, 2] :=
  claim_C6_sample_shape.2 2 [3] [] [3] [5] rfl

end TorchMVN
